import Mathlib

/-!
Verification development for the Verible AUTO-directive expansion engine
(`/*AUTOARG*/`, `/*AUTOINST*/`, `/*AUTO_TEMPLATE*/` expansion as a
language-server feature).  The engine itself (`autoexpand.cc`) is not part of
the visible sources — only its test suite is — so the definitions below are
modelled from the specification document (`spec.md`), §3 (data model),
§4 (component design), §6 (external interfaces) and §7 (error handling),
and are checked against the literal shapes of the test suite
(`verilog/tools/ls/autoexpand_test.cc`).
-/

namespace Autoexpand

/-- Modelled from the spec (§6, Edit record): a 0-based line/character
position in the buffer snapshot. -/
structure Pos where
  line : Nat
  character : Nat
deriving DecidableEq

/-- Modelled from the spec (§3, Edit): a `(line,col)` range in the buffer.
`startPos` is the start of the directive span, `endPos` its end. -/
structure Span where
  startPos : Pos
  endPos : Pos
deriving DecidableEq

/-- Modelled from the spec (§3, Port / Glossary): a port direction,
one of input, inout, output. -/
inductive Direction where
  | input : Direction
  | inout : Direction
  | output : Direction
deriving DecidableEq

/-- Modelled from the spec (§3, Port): a single port with its name and
direction (declaration style and position are kept implicit in the list
order of the owning module). -/
structure Port where
  name : String
  dir : Direction
deriving DecidableEq

/-- Modelled from the spec (§3, ModuleDecl): an external module declaration,
identified by name, offering its ANSI header ports and its non-ANSI
body-declared ports in source order. -/
structure ModuleDecl where
  name : String
  ansiPorts : List Port
  bodyPorts : List Port
deriving DecidableEq

/-- Modelled from the spec (§6): the project-wide symbol table, a source-order
list of module declarations. -/
abbrev SymbolIndex := List ModuleDecl

/-- Modelled from the spec (§6): `SymbolIndex.lookup_module(name)` — first
match wins on duplicates. -/
def lookup_module (s : SymbolIndex) (name : String) : Option ModuleDecl :=
  s.find? (fun m => m.name == name)

/-- Modelled from the spec (§3, Instantiation / TemplateRecord): one explicit
`.port(expression)` connection. -/
structure Connection where
  portName : String
  expr : String
deriving DecidableEq

/-- Modelled from the spec (§3, TemplateRecord): a parsed AUTO_TEMPLATE
record — the module-name pattern, the quoted regex (parsed and retained but
not applied), and the ordered connection overrides. -/
structure TemplateRecord where
  module_name_pattern : String
  regex : Option String
  connection_overrides : List Connection
deriving DecidableEq

/-- Modelled from the spec (§4.2 grammar): a character that may be part of a
Verilog identifier. -/
def isIdentChar (c : Char) : Bool :=
  c.isAlphanum || c == '_' || c == '$'

/-- Modelled from the spec (§3, TemplateRecord): the identifier prefix of a
module-name pattern. -/
def leadingIdent (s : String) : String :=
  String.mk (s.toList.takeWhile isIdentChar)

/-- Modelled from the spec (§3, EffectiveTemplate): a template record applies
to an instantiation exactly when the leading identifier of its pattern equals
the instantiation's module name. -/
def templateMatches (t : TemplateRecord) (moduleName : String) : Bool :=
  leadingIdent t.module_name_pattern == moduleName

/-- Modelled from the spec (§3, EffectiveTemplate / §4.2 tie-break): the last
matching record in lexical order supplies all overrides; no merging. -/
def effectiveTemplate (ts : List TemplateRecord) (moduleName : String) :
    List Connection :=
  match (ts.filter (fun t => templateMatches t moduleName)).getLast? with
  | some t => t.connection_overrides
  | none => []

/-- Modelled from the spec (§3, Port invariants): the names of a declaration
list in order of first appearance, without duplicates. -/
def firstSeenNames : List Port → List String
  | [] => []
  | p :: ps => p.name :: (firstSeenNames ps).filter (fun n => n ≠ p.name)

/-- Modelled from the spec (§3, Port invariants): the direction of name `n` is
the last declared direction for `n` (source-order wins); `d` is the fallback
for a name that never occurs. -/
def lastDir (ports : List Port) (n : String) (d : Direction) : Direction :=
  match (ports.filter (fun p => p.name == n)).getLast? with
  | some p => p.dir
  | none => d

/-- Modelled from the spec (§3, Port / PortList invariants): the effective
port list of a declaration sequence — unique names in first-seen order, the
direction of each taken from its last declaration. -/
def effectivePorts (ports : List Port) : List Port :=
  (firstSeenNames ports).map (fun n => ⟨n, lastDir ports n Direction.input⟩)

/-- Modelled from the spec (§4.3 AUTOINST step 2): the target module's port
list — union of ANSI-header and body-declared ports, header ports first. -/
def modulePorts (m : ModuleDecl) : List Port :=
  effectivePorts (m.ansiPorts ++ m.bodyPorts)

/-- Modelled from the spec (§4.3 AUTOINST steps 3–4): the ports an AUTOINST
fills in, paired with their connection expressions — the module's ports minus
those pre-connected, each connected to its template override when present,
else to its own name. -/
def autoinstConnections (m : ModuleDecl) (moduleName : String)
    (pre : List Connection) (ts : List TemplateRecord) :
    List (Port × String) :=
  let ov := effectiveTemplate ts moduleName
  ((modulePorts m).filter
      (fun p => !(pre.any (fun c => c.portName == p.name)))).map
    (fun p =>
      (p, match ov.find? (fun c => c.portName == p.name) with
          | some c => c.expr
          | none => p.name))

/-- Modelled from the spec (§4.3 emission): one line of an emitted fragment —
a bucket header comment, a `.port(expression)` connection line, or an AUTOARG
comma-separated name line.  Connection and name lines remember the direction
bucket they were emitted for. -/
inductive Line where
  | header : Direction → Line
  | conn : Direction → String → String → Line
  | args : Direction → List String → Line
deriving DecidableEq

/-- Modelled from the spec (§4.3 step 3 / step 5): the text of a bucket
header comment. -/
def headerText : Direction → String
  | Direction.input => "// Inputs"
  | Direction.inout => "// Inouts"
  | Direction.output => "// Outputs"

/-- Modelled from the spec (§4.3 AUTOINST step 5): the lines of one direction
bucket of an AUTOINST fill-in: a header comment when the bucket is non-empty,
then one `.port(expression)` line per port. -/
def instBucket (conns : List (Port × String)) (d : Direction) : List Line :=
  match conns.filter (fun pe => pe.1.dir == d) with
  | [] => []
  | b => Line.header d :: b.map (fun pe => Line.conn d pe.1.name pe.2)

/-- Modelled from the spec (§4.3 AUTOINST step 5): the emitted AUTOINST lines,
buckets in the fixed order inputs, inouts, outputs. -/
def autoinstLines (conns : List (Port × String)) : List Line :=
  instBucket conns Direction.input ++ instBucket conns Direction.inout ++
    instBucket conns Direction.output

/-- Modelled from the spec (§4.3 AUTOARG step 3): the lines of one direction
bucket of an AUTOARG fill-in: a header comment and the comma-separated port
names, when the bucket is non-empty. -/
def argBucket (ports : List Port) (d : Direction) : List Line :=
  match ports.filter (fun p => p.dir == d) with
  | [] => []
  | b => [Line.header d, Line.args d (b.map Port.name)]

/-- Modelled from the spec (§4.3 AUTOARG step 3): the emitted AUTOARG lines,
buckets in the fixed order inputs, inouts, outputs. -/
def autoargLines (ports : List Port) : List Line :=
  argBucket ports Direction.input ++ argBucket ports Direction.inout ++
    argBucket ports Direction.output

/-- Modelled from the spec (§4.3 emission): the text of one emitted line at
the given indentation. -/
def lineText (ind : String) : Line → String
  | Line.header d => ind ++ headerText d
  | Line.conn _ p e => ind ++ "." ++ p ++ "(" ++ e ++ ")"
  | Line.args _ ns => ind ++ String.intercalate ", " ns

/-- Modelled from the spec (§4.3 step 3): the separator after a line — bucket
headers end with a newline only, port lines take the list comma. -/
def sepAfter : Line → String
  | Line.header _ => "\n"
  | Line.conn _ _ _ => ",\n"
  | Line.args _ _ => ",\n"

/-- Modelled from the spec (§4.3 emission): joining emitted lines into the
fragment text; the final line carries no trailing separator. -/
def joinLines (ind : String) : List Line → String
  | [] => ""
  | [l] => lineText ind l
  | l :: l' :: ls => lineText ind l ++ sepAfter l ++ joinLines ind (l' :: ls)

/-- Modelled from the spec (§4.3 AUTOARG step 4): the rendered AUTOARG
fill-in, replacing the span from the end of the directive comment up to the
header's closing parenthesis, which sits on its own indented line. -/
def autoargFill (ind : String) (ports : List Port) : String :=
  "\n" ++ joinLines ind (autoargLines ports) ++ "\n" ++ ind

/-- Modelled from the spec (§4.3 AUTOINST steps 5–6): the rendered AUTOINST
fill-in, replacing the span from the end of the directive comment to the
connection list's closing parenthesis. -/
def autoinstFill (ind : String) (conns : List (Port × String)) : String :=
  "\n" ++ joinLines ind (autoinstLines conns)

/-- Modelled from the spec (§3/§4.1): an `/*AUTOARG*/` directive bound to its
enclosing module header — the directive span (from the directive through any
previously emitted fill-in, up to the header's closing parenthesis), the
current text of that span, and the indentation of the emitted block. -/
structure AutoargCtx where
  span : Span
  fillIn : String
  indent : String
deriving DecidableEq

/-- Modelled from the spec (§3, Instantiation): an instantiation carrying an
`/*AUTOINST*/` directive — instance and module name, the explicit connections
appearing lexically before the directive, and the directive span with its
current text (the directive plus any previously emitted fill-in trailing it,
including any connection text lexically after the directive). -/
structure Instantiation where
  instName : String
  moduleName : String
  preConnections : List Connection
  span : Span
  fillIn : String
  indent : String
deriving DecidableEq

/-- Modelled from the spec (§4.1, directive locator): one located item inside
a module body — an instantiation bearing an AUTOINST, a parsed AUTO_TEMPLATE
record, or a stray AUTO comment that sits outside any valid syntactic context
(ignored by the engine). -/
inductive BodyItem where
  | inst : Instantiation → BodyItem
  | template : TemplateRecord → BodyItem
  | stray : Span → String → BodyItem
deriving DecidableEq

/-- Modelled from the spec (§3, ModuleHeader): a module of the edited buffer —
its name, the port names pre-declared in the header before any AUTOARG, the
optional AUTOARG directive of its header, its non-ANSI body-declared ports in
source order, and its located body items in lexical order. -/
structure ModuleBuf where
  name : String
  headerPortNames : List String
  autoarg : Option AutoargCtx
  bodyPorts : List Port
  items : List BodyItem
deriving DecidableEq

/-- Modelled from the spec (§6): the parsed buffer snapshot, a source-order
list of modules. -/
abbrev Buffer := List ModuleBuf

/-- Modelled from the spec (§4.2/§9, template scoping): the AUTO_TEMPLATE
records of a module scope, in lexical order. -/
def templatesOf (mb : ModuleBuf) : List TemplateRecord :=
  mb.items.filterMap (fun it =>
    match it with
    | BodyItem.template t => some t
    | _ => none)

/-- Modelled from the spec (§4.3 AUTOARG steps 1–2): the ports an AUTOARG
fills in — the effective body-declared ports minus those already named in the
header before the directive. -/
def autoargPorts (mb : ModuleBuf) : List Port :=
  (effectivePorts mb.bodyPorts).filter
    (fun p => !(mb.headerPortNames.contains p.name))

/-- Modelled from the spec (§4.3 AUTOINST step 1): resolve the instantiation's
module and compute its fill-in connections; `none` when the module is not in
the index. -/
def expandInstConns (s : SymbolIndex) (ts : List TemplateRecord)
    (i : Instantiation) : Option (List (Port × String)) :=
  match lookup_module s i.moduleName with
  | none => none
  | some m => some (autoinstConnections m i.moduleName i.preConnections ts)

/-- Modelled from the spec (§4.3 AUTOINST): the rendered fill-in text of an
AUTOINST directive; `none` when its module is unresolved. -/
def instFragment (s : SymbolIndex) (ts : List TemplateRecord)
    (i : Instantiation) : Option String :=
  (expandInstConns s ts i).map (fun conns => autoinstFill i.indent conns)

/-- Modelled from the spec (§3, Edit / §6 wire record): a text edit — the
span it replaces and the replacement text. -/
structure Edit where
  span : Span
  newText : String
deriving DecidableEq

/-- Modelled from the spec (§2/§4): a reference to one located directive (or
stray AUTO comment) together with its enclosing module context. -/
inductive DirRef where
  | arg : ModuleBuf → AutoargCtx → DirRef
  | ins : ModuleBuf → Instantiation → DirRef
  | str : Span → String → DirRef
deriving DecidableEq

/-- Modelled from the spec (§3, directive span): the span a directive
reference owns. -/
def dirSpan : DirRef → Span
  | DirRef.arg _ a => a.span
  | DirRef.ins _ i => i.span
  | DirRef.str sp _ => sp

/-- Modelled from the spec (§3): the current text of a directive's span. -/
def dirFill : DirRef → String
  | DirRef.arg _ a => a.fillIn
  | DirRef.ins _ i => i.fillIn
  | DirRef.str _ t => t

/-- Modelled from the spec (§4.1): the located directives of one module, in
source order — the header AUTOARG, then the body instantiations and stray
comments (templates are consumed, never themselves edited). -/
def moduleDirs (mb : ModuleBuf) : List DirRef :=
  (match mb.autoarg with
   | some a => [DirRef.arg mb a]
   | none => []) ++
  mb.items.filterMap (fun it =>
    match it with
    | BodyItem.inst i => some (DirRef.ins mb i)
    | BodyItem.template _ => none
    | BodyItem.stray sp t => some (DirRef.str sp t))

/-- Modelled from the spec (§4.1): all located directives of the buffer in
source order. -/
def bufferDirs (B : Buffer) : List DirRef :=
  (B.map moduleDirs).flatten

/-- Modelled from the spec (§3): the spans of all located directives. -/
def bufferSpans (B : Buffer) : List Span :=
  (bufferDirs B).map dirSpan

/-- Modelled from the spec (§3, Edit invariant / §8 disjointness): a
well-formed parse gives every directive its own span. -/
def WellFormed (B : Buffer) : Prop :=
  (bufferSpans B).Nodup

/-- Modelled from the spec (§4.3/§4.4): the edit one directive reference
produces — AUTOARG always renders; AUTOINST renders when its module resolves;
a stray comment never produces an edit. -/
def dirEdit (s : SymbolIndex) : DirRef → Option Edit
  | DirRef.arg mb a => some ⟨a.span, autoargFill a.indent (autoargPorts mb)⟩
  | DirRef.ins mb i =>
      (instFragment s (templatesOf mb) i).map (fun f => ⟨i.span, f⟩)
  | DirRef.str _ _ => none

/-- Modelled from the spec (§4.4, edit planner): the per-directive edits of
the whole buffer, in source order. -/
def collectEdits (s : SymbolIndex) (B : Buffer) : List Edit :=
  (bufferDirs B).filterMap (dirEdit s)

/-- Modelled from the spec (§4.4): position order, line first then column. -/
def posLe (a b : Pos) : Prop :=
  a.line < b.line ∨ (a.line = b.line ∧ a.character ≤ b.character)

instance : DecidableRel posLe := fun a b => by
  unfold posLe
  exact inferInstance

/-- Modelled from the spec (§4.4): the façade's edit order — descending end
position (line first, then column). -/
def editBefore (a b : Edit) : Prop :=
  posLe b.span.endPos a.span.endPos

instance : DecidableRel editBefore := fun a b => by
  unfold editBefore
  exact inferInstance

instance : IsTotal Edit editBefore where
  total a b := by
    unfold editBefore posLe
    omega

instance : IsTrans Edit editBefore where
  trans a b c hab hbc := by
    unfold editBefore posLe at *
    omega

/-- Modelled from the spec (§6, exposed interface / §4.4): the edit list
returned to the host — all per-directive edits, sorted by descending end
position so applying them in list order keeps the remaining spans valid. -/
def generate_expand_edits (s : SymbolIndex) (B : Buffer) : List Edit :=
  (collectEdits s B).insertionSort editBefore

/-- Modelled from the spec (§4.3): expansion of one body item — an AUTOINST
instantiation gets its rendered fill-in when its module resolves; templates,
stray comments and unresolved instantiations are left unchanged. -/
def expandItem (s : SymbolIndex) (ts : List TemplateRecord) :
    BodyItem → BodyItem
  | BodyItem.inst i =>
      BodyItem.inst
        (match instFragment s ts i with
         | some f => { i with fillIn := f }
         | none => i)
  | it => it

/-- Modelled from the spec (§4.3): expansion of one module — the AUTOARG
fill-in is rendered from the module's own ports and every body item is
expanded against the module's templates. -/
def expandModule (s : SymbolIndex) (mb : ModuleBuf) : ModuleBuf :=
  { mb with
    autoarg := mb.autoarg.map
      (fun a => { a with fillIn := autoargFill a.indent (autoargPorts mb) }),
    items := mb.items.map (expandItem s (templatesOf mb)) }

/-- Modelled from the spec (§4.3): expansion of the whole buffer. -/
def expandBuffer (s : SymbolIndex) (B : Buffer) : Buffer :=
  B.map (expandModule s)

/-- Modelled from the spec (§6, change application): the external apply
machinery replaces the text of a span by the replacement text of the edit
whose range equals it, when there is one. -/
def applyToFill (es : List Edit) (sp : Span) (cur : String) : String :=
  match es.find? (fun e => e.span == sp) with
  | some e => e.newText
  | none => cur

/-- Modelled from the spec (§6): applying an edit list to one body item. -/
def applyItem (es : List Edit) : BodyItem → BodyItem
  | BodyItem.inst i =>
      BodyItem.inst { i with fillIn := applyToFill es i.span i.fillIn }
  | BodyItem.template t => BodyItem.template t
  | BodyItem.stray sp t => BodyItem.stray sp (applyToFill es sp t)

/-- Modelled from the spec (§6): applying an edit list to one module. -/
def applyModule (es : List Edit) (mb : ModuleBuf) : ModuleBuf :=
  { mb with
    autoarg := mb.autoarg.map
      (fun a => { a with fillIn := applyToFill es a.span a.fillIn }),
    items := mb.items.map (applyItem es) }

/-- Modelled from the spec (§6): applying an edit list to the buffer. -/
def applyEdits (es : List Edit) (B : Buffer) : Buffer :=
  B.map (applyModule es)

/-- Modelled from the spec (§6, code-action record): a code action with its
human title and its edits for the document. -/
structure CodeAction where
  title : String
  edits : List Edit
deriving DecidableEq

/-- Modelled from the spec (§4.5): whether a directive span's start line lies
within the requested range. -/
def spanInRange (r : Span) (sp : Span) : Bool :=
  decide (r.startPos.line ≤ sp.startPos.line) &&
    decide (sp.startPos.line ≤ r.endPos.line)

/-- Modelled from the spec (§4.5/§6): the code-action façade — the action
expanding every directive in the file, and the action expanding only the
directives whose span start line lies within the requested range. -/
def generate_code_actions (s : SymbolIndex) (B : Buffer) (r : Span) :
    List CodeAction :=
  [⟨"Expand all AUTOs in file", generate_expand_edits s B⟩,
   ⟨"Expand all AUTOs in selected range",
    (((bufferDirs B).filter (fun d => spanInRange r (dirSpan d))).filterMap
        (dirEdit s)).insertionSort editBefore⟩]

/-- Modelled from the spec (§4.3/§4.4 idempotence note): the shape a directive
reference takes after one expansion pass — its enclosing module expanded and
its fill-in replaced by the rendered fragment when one exists. -/
def dirExpand (s : SymbolIndex) : DirRef → DirRef
  | DirRef.arg mb a =>
      DirRef.arg (expandModule s mb)
        { a with fillIn := autoargFill a.indent (autoargPorts mb) }
  | DirRef.ins mb i =>
      DirRef.ins (expandModule s mb)
        (match instFragment s (templatesOf mb) i with
         | some f => { i with fillIn := f }
         | none => i)
  | DirRef.str sp t => DirRef.str sp t

theorem dirEdit_span (s : SymbolIndex) {d : DirRef} {e : Edit}
    (h : dirEdit s d = some e) : e.span = dirSpan d := by
  cases d with
  | arg mb a =>
    simp only [dirEdit, Option.some.injEq] at h
    rw [← h]
    rfl
  | ins mb i =>
    simp only [dirEdit, Option.map_eq_some'] at h
    obtain ⟨f, _, hf⟩ := h
    rw [← hf]
    rfl
  | str sp t => simp [dirEdit] at h

theorem mem_collectEdits {s : SymbolIndex} {B : Buffer} {e : Edit} :
    e ∈ collectEdits s B ↔ ∃ d ∈ bufferDirs B, dirEdit s d = some e := by
  unfold collectEdits
  exact List.mem_filterMap

theorem mem_generate_edits {s : SymbolIndex} {B : Buffer} {e : Edit} :
    e ∈ generate_expand_edits s B ↔
      ∃ d ∈ bufferDirs B, dirEdit s d = some e := by
  unfold generate_expand_edits
  rw [(List.perm_insertionSort editBefore (collectEdits s B)).mem_iff]
  exact mem_collectEdits

theorem find_unique {α : Type _} (p : α → Bool) :
    ∀ {l : List α} {e : α}, e ∈ l → p e = true →
      (∀ x ∈ l, p x = true → x = e) → l.find? p = some e := by
  intro l
  induction l with
  | nil => intro e he; cases he
  | cons a tl ih =>
    intro e he hpe huniq
    by_cases hpa : p a = true
    · rw [List.find?_cons_of_pos _ hpa]
      rw [huniq a (List.mem_cons_self a tl) hpa]
    · rw [List.find?_cons_of_neg _ hpa]
      have he' : e ∈ tl := by
        rcases List.mem_cons.mp he with h | h
        · exact absurd (h ▸ hpe) hpa
        · exact h
      exact ih he' hpe (fun x hx hpx => huniq x (List.mem_cons_of_mem _ hx) hpx)

theorem dir_inj {B : Buffer} (hwf : WellFormed B) {d d' : DirRef}
    (hd : d ∈ bufferDirs B) (hd' : d' ∈ bufferDirs B)
    (h : dirSpan d = dirSpan d') : d = d' :=
  List.inj_on_of_nodup_map hwf hd hd' h

theorem gen_find_of_some (s : SymbolIndex) {B : Buffer} (hwf : WellFormed B)
    {d : DirRef} {e : Edit} (hd : d ∈ bufferDirs B)
    (he : dirEdit s d = some e) :
    (generate_expand_edits s B).find? (fun x => x.span == dirSpan d) =
      some e := by
  apply find_unique
  · exact mem_generate_edits.mpr ⟨d, hd, he⟩
  · simp [dirEdit_span s he]
  · intro x hx hpx
    obtain ⟨d', hd', he'⟩ := mem_generate_edits.mp hx
    have hsp : dirSpan d' = dirSpan d := by
      rw [← dirEdit_span s he']
      exact eq_of_beq hpx
    rw [dir_inj hwf hd' hd hsp] at he'
    rw [he'] at he
    exact Option.some.inj he

theorem gen_find_of_none (s : SymbolIndex) {B : Buffer} (hwf : WellFormed B)
    {d : DirRef} (hd : d ∈ bufferDirs B) (he : dirEdit s d = none) :
    (generate_expand_edits s B).find? (fun x => x.span == dirSpan d) =
      none := by
  rw [List.find?_eq_none]
  intro x hx hpx
  obtain ⟨d', hd', he'⟩ := mem_generate_edits.mp hx
  have hsp : dirSpan d' = dirSpan d := by
    rw [← dirEdit_span s he']
    exact eq_of_beq (by simpa using hpx)
  rw [dir_inj hwf hd' hd hsp] at he'
  rw [he] at he'
  cases he'

theorem arg_mem_bufferDirs {B : Buffer} {mb : ModuleBuf} {a : AutoargCtx}
    (hmb : mb ∈ B) (ha : mb.autoarg = some a) :
    DirRef.arg mb a ∈ bufferDirs B := by
  unfold bufferDirs
  rw [List.mem_flatten]
  refine ⟨moduleDirs mb, List.mem_map_of_mem moduleDirs hmb, ?_⟩
  unfold moduleDirs
  rw [ha]
  exact List.mem_append_left _ (List.mem_singleton.mpr rfl)

theorem ins_mem_bufferDirs {B : Buffer} {mb : ModuleBuf} {i : Instantiation}
    (hmb : mb ∈ B) (hi : BodyItem.inst i ∈ mb.items) :
    DirRef.ins mb i ∈ bufferDirs B := by
  unfold bufferDirs
  rw [List.mem_flatten]
  refine ⟨moduleDirs mb, List.mem_map_of_mem moduleDirs hmb, ?_⟩
  unfold moduleDirs
  apply List.mem_append_right
  exact List.mem_filterMap.mpr ⟨BodyItem.inst i, hi, rfl⟩

theorem str_mem_bufferDirs {B : Buffer} {mb : ModuleBuf} {sp : Span}
    {t : String} (hmb : mb ∈ B) (hs : BodyItem.stray sp t ∈ mb.items) :
    DirRef.str sp t ∈ bufferDirs B := by
  unfold bufferDirs
  rw [List.mem_flatten]
  refine ⟨moduleDirs mb, List.mem_map_of_mem moduleDirs hmb, ?_⟩
  unfold moduleDirs
  apply List.mem_append_right
  exact List.mem_filterMap.mpr ⟨BodyItem.stray sp t, hs, rfl⟩

theorem templatesOf_expandModule (s : SymbolIndex) (mb : ModuleBuf) :
    templatesOf (expandModule s mb) = templatesOf mb := by
  unfold templatesOf expandModule
  rw [List.filterMap_map]
  apply List.filterMap_congr
  intro it _
  cases it with
  | inst i => rfl
  | template t => rfl
  | stray sp t => rfl

theorem autoargPorts_expandModule (s : SymbolIndex) (mb : ModuleBuf) :
    autoargPorts (expandModule s mb) = autoargPorts mb := rfl

theorem instFragment_fillIn (s : SymbolIndex) (ts : List TemplateRecord)
    (i : Instantiation) (f : String) :
    instFragment s ts { i with fillIn := f } = instFragment s ts i := rfl

theorem moduleDirs_expandModule (s : SymbolIndex) (mb : ModuleBuf) :
    moduleDirs (expandModule s mb) = (moduleDirs mb).map (dirExpand s) := by
  unfold moduleDirs
  rw [List.map_append]
  congr 1
  · cases ha : mb.autoarg with
    | none => simp [expandModule, ha]
    | some a => simp [expandModule, ha, dirExpand]
  · have hit : (expandModule s mb).items =
        mb.items.map (expandItem s (templatesOf mb)) := rfl
    rw [hit, List.filterMap_map, List.map_filterMap]
    apply List.filterMap_congr
    intro it _
    cases it with
    | inst i =>
      simp only [Function.comp_apply, expandItem]
      cases hf : instFragment s (templatesOf mb) i with
      | none => simp [dirExpand, hf]
      | some f => simp [dirExpand, hf]
    | template t => rfl
    | stray sp t => rfl

theorem dirSpan_dirExpand (s : SymbolIndex) (d : DirRef) :
    dirSpan (dirExpand s d) = dirSpan d := by
  cases d with
  | arg mb a => rfl
  | ins mb i =>
    simp only [dirExpand]
    cases instFragment s (templatesOf mb) i <;> rfl
  | str sp t => rfl

theorem dirEdit_dirExpand (s : SymbolIndex) (d : DirRef) :
    dirEdit s (dirExpand s d) = dirEdit s d := by
  cases d with
  | arg mb a =>
    simp only [dirExpand, dirEdit]
    rw [autoargPorts_expandModule]
  | ins mb i =>
    simp only [dirExpand, dirEdit]
    rw [templatesOf_expandModule]
    cases hf : instFragment s (templatesOf mb) i with
    | none => simp [hf]
    | some f => simp [instFragment_fillIn, hf]
  | str sp t => rfl

theorem bufferDirs_expandBuffer (s : SymbolIndex) (B : Buffer) :
    bufferDirs (expandBuffer s B) = (bufferDirs B).map (dirExpand s) := by
  unfold bufferDirs expandBuffer
  rw [List.map_map, List.map_flatten, List.map_map]
  congr 1
  apply List.map_congr_left
  intro mb _
  exact moduleDirs_expandModule s mb

theorem bufferSpans_expandBuffer (s : SymbolIndex) (B : Buffer) :
    bufferSpans (expandBuffer s B) = bufferSpans B := by
  unfold bufferSpans
  rw [bufferDirs_expandBuffer, List.map_map]
  apply List.map_congr_left
  intro d _
  exact dirSpan_dirExpand s d

theorem wellFormed_expandBuffer {s : SymbolIndex} {B : Buffer}
    (hwf : WellFormed B) : WellFormed (expandBuffer s B) := by
  unfold WellFormed
  rw [bufferSpans_expandBuffer]
  exact hwf

theorem collectEdits_expandBuffer (s : SymbolIndex) (B : Buffer) :
    collectEdits s (expandBuffer s B) = collectEdits s B := by
  unfold collectEdits
  rw [bufferDirs_expandBuffer, List.filterMap_map]
  apply List.filterMap_congr
  intro d _
  exact dirEdit_dirExpand s d

theorem generate_edits_expandBuffer (s : SymbolIndex) (B : Buffer) :
    generate_expand_edits s (expandBuffer s B) = generate_expand_edits s B := by
  unfold generate_expand_edits
  rw [collectEdits_expandBuffer]

theorem expandModule_idem (s : SymbolIndex) (mb : ModuleBuf) :
    expandModule s (expandModule s mb) = expandModule s mb := by
  show ({ expandModule s mb with
      autoarg := (expandModule s mb).autoarg.map (fun a =>
        { a with
          fillIn := autoargFill a.indent (autoargPorts (expandModule s mb)) }),
      items := (expandModule s mb).items.map
        (expandItem s (templatesOf (expandModule s mb))) } : ModuleBuf) =
    expandModule s mb
  rw [templatesOf_expandModule, autoargPorts_expandModule]
  have hauto : (expandModule s mb).autoarg.map (fun a =>
      { a with fillIn := autoargFill a.indent (autoargPorts mb) }) =
      (expandModule s mb).autoarg := by
    show (mb.autoarg.map _).map _ = mb.autoarg.map _
    rw [Option.map_map]
    cases mb.autoarg <;> rfl
  have hitems : (expandModule s mb).items.map
      (expandItem s (templatesOf mb)) = (expandModule s mb).items := by
    show (mb.items.map _).map _ = mb.items.map _
    rw [List.map_map]
    apply List.map_congr_left
    intro it _
    cases it with
    | inst i =>
      simp only [Function.comp_apply, expandItem]
      cases hf : instFragment s (templatesOf mb) i with
      | none => simp [expandItem, hf]
      | some f => simp [expandItem, instFragment_fillIn, hf]
    | template t => rfl
    | stray sp t => rfl
  rw [hauto, hitems]

theorem expandBuffer_idem (s : SymbolIndex) (B : Buffer) :
    expandBuffer s (expandBuffer s B) = expandBuffer s B := by
  unfold expandBuffer
  rw [List.map_map]
  apply List.map_congr_left
  intro mb _
  exact expandModule_idem s mb

theorem applyEdits_generate {s : SymbolIndex} {B : Buffer}
    (hwf : WellFormed B) :
    applyEdits (generate_expand_edits s B) B = expandBuffer s B := by
  unfold applyEdits expandBuffer
  apply List.map_congr_left
  intro mb hmb
  unfold applyModule expandModule
  simp only [ModuleBuf.mk.injEq, true_and]
  constructor
  · cases ha : mb.autoarg with
    | none => rfl
    | some a =>
      simp only [Option.map_some', Option.some.injEq, AutoargCtx.mk.injEq,
        true_and, and_true]
      have hd := arg_mem_bufferDirs hmb ha
      have he : dirEdit s (DirRef.arg mb a) =
          some ⟨a.span, autoargFill a.indent (autoargPorts mb)⟩ := rfl
      have hfind := gen_find_of_some s hwf hd he
      unfold applyToFill
      rw [show dirSpan (DirRef.arg mb a) = a.span from rfl] at hfind
      rw [hfind]
  · apply List.map_congr_left
    intro it hit
    cases it with
    | inst i =>
      have hd := ins_mem_bufferDirs hmb hit
      cases hf : instFragment s (templatesOf mb) i with
      | some f =>
        have he : dirEdit s (DirRef.ins mb i) = some ⟨i.span, f⟩ := by
          simp [dirEdit, hf]
        have hfind := gen_find_of_some s hwf hd he
        rw [show dirSpan (DirRef.ins mb i) = i.span from rfl] at hfind
        simp only [applyItem, applyToFill]
        rw [hfind]
        simp [expandItem, hf]
      | none =>
        have he : dirEdit s (DirRef.ins mb i) = none := by
          simp [dirEdit, hf]
        have hfind := gen_find_of_none s hwf hd he
        rw [show dirSpan (DirRef.ins mb i) = i.span from rfl] at hfind
        simp only [applyItem, applyToFill]
        rw [hfind]
        simp [expandItem, hf]
    | template t => rfl
    | stray sp t =>
      have hd := str_mem_bufferDirs hmb hit
      have he : dirEdit s (DirRef.str sp t) = none := rfl
      have hfind := gen_find_of_none s hwf hd he
      rw [show dirSpan (DirRef.str sp t) = sp from rfl] at hfind
      simp only [applyItem, applyToFill]
      rw [hfind]
      rfl

theorem dirFill_dirExpand_of_edit {s : SymbolIndex} {d : DirRef} {e : Edit}
    (he : dirEdit s d = some e) : dirFill (dirExpand s d) = e.newText := by
  cases d with
  | arg mb a =>
    simp only [dirEdit, Option.some.injEq] at he
    rw [← he]
    rfl
  | ins mb i =>
    simp only [dirEdit, Option.map_eq_some'] at he
    obtain ⟨f, hf, hfe⟩ := he
    simp only [dirExpand, hf]
    rw [← hfe]
    rfl
  | str sp t => simp [dirEdit] at he

/-- Modelled from the spec (§4.3, fixed bucket order): the rank of a direction
bucket — inputs first, then inouts, then outputs. -/
def dirRank : Direction → Nat
  | Direction.input => 0
  | Direction.inout => 1
  | Direction.output => 2

/-- Modelled from the spec (§4.3): the direction bucket an emitted line
belongs to, as a rank. -/
def lineRank : Line → Nat
  | Line.header d => dirRank d
  | Line.conn d _ _ => dirRank d
  | Line.args d _ => dirRank d

theorem rank_instBucket {conns : List (Port × String)} {d : Direction} :
    ∀ l ∈ instBucket conns d, lineRank l = dirRank d := by
  intro l hl
  unfold instBucket at hl
  cases hb : conns.filter (fun pe => pe.1.dir == d) with
  | nil => rw [hb] at hl; cases hl
  | cons hd tl =>
    rw [hb] at hl
    rcases List.mem_cons.mp hl with h | h
    · rw [h]; rfl
    · obtain ⟨pe, _, hpe⟩ := List.mem_map.mp h
      rw [← hpe]; rfl

theorem rank_argBucket {ports : List Port} {d : Direction} :
    ∀ l ∈ argBucket ports d, lineRank l = dirRank d := by
  intro l hl
  unfold argBucket at hl
  cases hb : ports.filter (fun p => p.dir == d) with
  | nil => rw [hb] at hl; cases hl
  | cons hd tl =>
    rw [hb] at hl
    rcases List.mem_cons.mp hl with h | h
    · rw [h]; rfl
    · rcases List.mem_cons.mp h with h2 | h2
      · rw [h2]; rfl
      · cases h2

theorem pairwise_rank_of_const :
    ∀ (L : List Line) (k : Nat), (∀ l ∈ L, lineRank l = k) →
      L.Pairwise (fun a b => lineRank a ≤ lineRank b) := by
  intro L
  induction L with
  | nil => intro k _; exact List.Pairwise.nil
  | cons a tl ih =>
    intro k hk
    refine List.Pairwise.cons ?_ (ih k (fun l hl => hk l (List.mem_cons_of_mem a hl)))
    intro b hb
    rw [hk a (List.mem_cons_self a tl), hk b (List.mem_cons_of_mem a hb)]

theorem header_mem_instBucket {conns : List (Port × String)}
    {d d' : Direction} (h : Line.header d ∈ instBucket conns d') :
    d = d' ∧ ∃ pe ∈ conns, pe.1.dir = d' := by
  unfold instBucket at h
  cases hb : conns.filter (fun pe => pe.1.dir == d') with
  | nil => rw [hb] at h; cases h
  | cons hd tl =>
    rw [hb] at h
    rcases List.mem_cons.mp h with h2 | h2
    · have hd' : hd ∈ conns.filter (fun pe => pe.1.dir == d') := by
        rw [hb]; exact List.mem_cons_self hd tl
      have hfd := List.mem_filter.mp hd'
      have hdd : d = d' := by injection h2
      exact ⟨hdd, hd, hfd.1, eq_of_beq hfd.2⟩
    · obtain ⟨pe, _, hpe⟩ := List.mem_map.mp h2
      cases hpe

theorem header_mem_instBucket_self {conns : List (Port × String)}
    {d : Direction} {pe : Port × String} (hpe : pe ∈ conns)
    (hd : pe.1.dir = d) : Line.header d ∈ instBucket conns d := by
  have hmem : pe ∈ conns.filter (fun x => x.1.dir == d) :=
    List.mem_filter.mpr ⟨hpe, by rw [hd]; exact beq_self_eq_true d⟩
  unfold instBucket
  cases hb : conns.filter (fun x => x.1.dir == d) with
  | nil => rw [hb] at hmem; cases hmem
  | cons hd' tl => exact List.mem_cons_self _ _

theorem conn_mem_instBucket {conns : List (Port × String)}
    {pe : Port × String} (hpe : pe ∈ conns) :
    Line.conn pe.1.dir pe.1.name pe.2 ∈ instBucket conns pe.1.dir := by
  have hmem : pe ∈ conns.filter (fun x => x.1.dir == pe.1.dir) :=
    List.mem_filter.mpr ⟨hpe, beq_self_eq_true pe.1.dir⟩
  unfold instBucket
  cases hb : conns.filter (fun x => x.1.dir == pe.1.dir) with
  | nil => rw [hb] at hmem; cases hmem
  | cons hd tl =>
    apply List.mem_cons_of_mem
    rw [hb] at hmem
    exact List.mem_map.mpr ⟨pe, hmem, rfl⟩

theorem conn_mem_autoinstLines {conns : List (Port × String)}
    {pe : Port × String} (hpe : pe ∈ conns) :
    Line.conn pe.1.dir pe.1.name pe.2 ∈ autoinstLines conns := by
  unfold autoinstLines
  have h := conn_mem_instBucket hpe
  cases hd : pe.1.dir with
  | input =>
    apply List.mem_append_left
    apply List.mem_append_left
    rw [← hd]; rw [hd] at h ⊢; exact h
  | inout =>
    apply List.mem_append_left
    apply List.mem_append_right
    rw [hd] at h; exact h
  | output =>
    apply List.mem_append_right
    rw [hd] at h; exact h

theorem conn_line_name {conns : List (Port × String)} {d : Direction}
    {n x : String} (h : Line.conn d n x ∈ autoinstLines conns) :
    ∃ pe ∈ conns, pe.1.name = n := by
  have hb : ∀ d', Line.conn d n x ∈ instBucket conns d' →
      ∃ pe ∈ conns, pe.1.name = n := by
    intro d' hmem
    unfold instBucket at hmem
    cases hfb : conns.filter (fun pe => pe.1.dir == d') with
    | nil => rw [hfb] at hmem; cases hmem
    | cons hd tl =>
      rw [hfb] at hmem
      rcases List.mem_cons.mp hmem with h2 | h2
      · cases h2
      · obtain ⟨pe, hpe, hpe2⟩ := List.mem_map.mp h2
        have : pe ∈ conns.filter (fun x => x.1.dir == d') := by
          rw [hfb]; exact hpe
        refine ⟨pe, (List.mem_filter.mp this).1, ?_⟩
        cases hpe2
        rfl
  unfold autoinstLines at h
  rcases List.mem_append.mp h with h1 | h1
  · rcases List.mem_append.mp h1 with h2 | h2
    · exact hb Direction.input h2
    · exact hb Direction.inout h2
  · exact hb Direction.output h1

theorem header_mem_argBucket {ports : List Port} {d d' : Direction}
    (h : Line.header d ∈ argBucket ports d') :
    d = d' ∧ ∃ p ∈ ports, p.dir = d' := by
  unfold argBucket at h
  cases hb : ports.filter (fun p => p.dir == d') with
  | nil => rw [hb] at h; cases h
  | cons hd tl =>
    rw [hb] at h
    have hdmem : hd ∈ ports.filter (fun p => p.dir == d') := by
      rw [hb]; exact List.mem_cons_self hd tl
    have hfd := List.mem_filter.mp hdmem
    rcases List.mem_cons.mp h with h2 | h2
    · have hdd : d = d' := by injection h2
      exact ⟨hdd, hd, hfd.1, eq_of_beq hfd.2⟩
    · rcases List.mem_cons.mp h2 with h3 | h3
      · cases h3
      · cases h3

theorem header_mem_argBucket_self {ports : List Port} {d : Direction}
    {p : Port} (hp : p ∈ ports) (hd : p.dir = d) :
    Line.header d ∈ argBucket ports d := by
  have hmem : p ∈ ports.filter (fun x => x.dir == d) :=
    List.mem_filter.mpr ⟨hp, by rw [hd]; exact beq_self_eq_true d⟩
  unfold argBucket
  cases hb : ports.filter (fun x => x.dir == d) with
  | nil => rw [hb] at hmem; cases hmem
  | cons hd' tl => exact List.mem_cons_self _ _

/-- Modelled from the spec (§3/§4.3 step 6): the instance names and explicit
pre-directive connections of every instantiation of the buffer, in source
order. -/
def instPreConns (B : Buffer) : List (String × List Connection) :=
  (bufferDirs B).filterMap (fun d =>
    match d with
    | DirRef.ins _ i => some (i.instName, i.preConnections)
    | _ => none)

theorem instPreConns_expand (s : SymbolIndex) (B : Buffer) :
    instPreConns (expandBuffer s B) = instPreConns B := by
  unfold instPreConns
  rw [bufferDirs_expandBuffer, List.filterMap_map]
  apply List.filterMap_congr
  intro d _
  cases d with
  | arg mb a => rfl
  | ins mb i =>
    simp only [Function.comp_apply, dirExpand]
    cases instFragment s (templatesOf mb) i <;> rfl
  | str sp t => rfl

instance (B : Buffer) : Decidable (WellFormed B) :=
  inferInstanceAs (Decidable ((bufferSpans B).Nodup))

/-- Test fixture, after `autoexpand_test.cc` AUTOINST_ExpandEmpty: the module
`bar` with two ANSI header ports and three body ports. -/
def barDecl : ModuleDecl :=
  ⟨"bar", [⟨"i1", Direction.input⟩, ⟨"o1", Direction.output⟩],
   [⟨"i2", Direction.input⟩, ⟨"io", Direction.inout⟩,
    ⟨"o2", Direction.output⟩]⟩

/-- Test fixture: a project symbol index holding only `bar`. -/
def projIndex : SymbolIndex := [barDecl]

/-- Test fixture: `bar b(/*AUTOINST*/);` with no explicit connections. -/
def barInst : Instantiation :=
  ⟨"b", "bar", [], ⟨⟨3, 8⟩, ⟨3, 21⟩⟩, "", "    "⟩

/-- Test fixture, after AUTOINST_Missing: `qux q(/*AUTOINST*/);` where no
module `qux` exists in the index. -/
def quxInst : Instantiation :=
  ⟨"q", "qux", [], ⟨⟨4, 8⟩, ⟨4, 21⟩⟩, "", "    "⟩

/-- Test fixture: the edited module `foo`, holding a resolvable AUTOINST, an
unresolvable AUTOINST, and a stray AUTOARG comment outside any header. -/
def fooModule : ModuleBuf :=
  ⟨"foo", [], none, [],
   [BodyItem.inst barInst, BodyItem.inst quxInst,
    BodyItem.stray ⟨⟨5, 2⟩, ⟨5, 13⟩⟩ "/*AUTOARG*/"]⟩

/-- Test fixture: the edited buffer. -/
def testBuffer : Buffer := [fooModule]

/-- C1: for every buffer `B` and symbol index `S`, applying the edit list
produced by `generate_expand_edits(S, B)` yields a buffer `B'` such that
running `generate_expand_edits(S, B')` again and applying its edits leaves
`B'` unchanged, each re-emitted replacement text equalling the current text
of its span. -/
theorem expand_edits_idempotent (s : SymbolIndex) (B : Buffer)
    (hwf : WellFormed B) :
    applyEdits (generate_expand_edits s
        (applyEdits (generate_expand_edits s B) B))
      (applyEdits (generate_expand_edits s B) B) =
      applyEdits (generate_expand_edits s B) B ∧
    ∀ e ∈ generate_expand_edits s (applyEdits (generate_expand_edits s B) B),
      ∃ d ∈ bufferDirs (applyEdits (generate_expand_edits s B) B),
        dirSpan d = e.span ∧ dirFill d = e.newText := by
  have hB' : applyEdits (generate_expand_edits s B) B = expandBuffer s B :=
    applyEdits_generate hwf
  rw [hB']
  have hwf' : WellFormed (expandBuffer s B) := wellFormed_expandBuffer hwf
  constructor
  · rw [applyEdits_generate hwf']
    exact expandBuffer_idem s B
  · intro e hegen
    rw [generate_edits_expandBuffer] at hegen
    obtain ⟨d, hd, hde⟩ := mem_generate_edits.mp hegen
    refine ⟨dirExpand s d, ?_, ?_, ?_⟩
    · rw [bufferDirs_expandBuffer]
      exact List.mem_map_of_mem _ hd
    · rw [dirSpan_dirExpand]
      exact (dirEdit_span s hde).symm
    · exact dirFill_dirExpand_of_edit hde

theorem expand_edits_idempotent_witness :
    WellFormed testBuffer ∧
    (applyEdits (generate_expand_edits projIndex
        (applyEdits (generate_expand_edits projIndex testBuffer) testBuffer))
      (applyEdits (generate_expand_edits projIndex testBuffer) testBuffer) =
      applyEdits (generate_expand_edits projIndex testBuffer) testBuffer ∧
    ∀ e ∈ generate_expand_edits projIndex
        (applyEdits (generate_expand_edits projIndex testBuffer) testBuffer),
      ∃ d ∈ bufferDirs
          (applyEdits (generate_expand_edits projIndex testBuffer) testBuffer),
        dirSpan d = e.span ∧ dirFill d = e.newText) :=
  ⟨by decide, expand_edits_idempotent projIndex testBuffer (by decide)⟩

/-- C4: a directive that cannot be expanded — an AUTOINST whose module is not
in the index, or a stray AUTOARG/AUTOINST comment outside its valid syntactic
context — produces no edit, while every resolvable directive's edit is in the
returned (total, never-failing) list: the list's members are exactly the
edits of the expandable directives. -/
theorem unexpandable_directives_skipped (s : SymbolIndex) (B : Buffer) :
    (∀ e : Edit, e ∈ generate_expand_edits s B ↔
        ∃ d ∈ bufferDirs B, dirEdit s d = some e) ∧
    (∀ (sp : Span) (t : String), dirEdit s (DirRef.str sp t) = none) ∧
    (∀ (mb : ModuleBuf) (i : Instantiation),
        lookup_module s i.moduleName = none →
        dirEdit s (DirRef.ins mb i) = none) ∧
    (∀ (mb : ModuleBuf) (i : Instantiation) (m : ModuleDecl),
        lookup_module s i.moduleName = some m →
        dirEdit s (DirRef.ins mb i) =
          some ⟨i.span, autoinstFill i.indent
            (autoinstConnections m i.moduleName i.preConnections
              (templatesOf mb))⟩) ∧
    (∀ (mb : ModuleBuf) (a : AutoargCtx),
        dirEdit s (DirRef.arg mb a) =
          some ⟨a.span, autoargFill a.indent (autoargPorts mb)⟩) := by
  refine ⟨fun e => mem_generate_edits, fun sp t => rfl, ?_, ?_, fun mb a => rfl⟩
  · intro mb i h
    simp [dirEdit, instFragment, expandInstConns, h]
  · intro mb i m h
    simp [dirEdit, instFragment, expandInstConns, h]

theorem unexpandable_directives_skipped_witness :
    dirEdit projIndex (DirRef.str ⟨⟨5, 2⟩, ⟨5, 13⟩⟩ "/*AUTOARG*/") = none ∧
    dirEdit projIndex (DirRef.ins fooModule quxInst) = none ∧
    (DirRef.ins fooModule quxInst ∈ bufferDirs testBuffer) :=
  ⟨(unexpandable_directives_skipped projIndex testBuffer).2.1 _ _,
   (unexpandable_directives_skipped projIndex testBuffer).2.2.1 fooModule
     quxInst (by decide),
   by decide⟩

/-- C2: an explicit connection `.p(expr)` lexically before the AUTOINST
directive keeps port `p` out of the generated fill-in (no `.p(...)` line is
emitted), and expansion preserves every instantiation's pre-directive
explicit connections verbatim. -/
theorem preconnected_ports_skipped (s : SymbolIndex) (B : Buffer)
    (m : ModuleDecl) (moduleName : String) (pre : List Connection)
    (ts : List TemplateRecord) (c : Connection) (hc : c ∈ pre) :
    (∀ (d : Direction) (x : String),
      Line.conn d c.portName x ∉
        autoinstLines (autoinstConnections m moduleName pre ts)) ∧
    instPreConns (expandBuffer s B) = instPreConns B := by
  refine ⟨?_, instPreConns_expand s B⟩
  intro d x hmem
  obtain ⟨pe, hpe, hname⟩ := conn_line_name hmem
  unfold autoinstConnections at hpe
  obtain ⟨p, hp, hpe2⟩ := List.mem_map.mp hpe
  have hfil := List.mem_filter.mp hp
  have hany : pre.any (fun c' => c'.portName == p.name) = false := by
    have h2 := hfil.2
    rwa [Bool.not_eq_eq_eq_not, Bool.not_true] at h2
  have hnc := List.any_eq_false.mp hany c hc
  apply hnc
  have hp1 : pe.1 = p := by rw [← hpe2]
  rw [hp1] at hname
  rw [hname]
  exact beq_self_eq_true c.portName

theorem preconnected_ports_skipped_witness :
    ⟨"i1", "io"⟩ ∈ ([⟨"i1", "io"⟩] : List Connection) ∧
    ((∀ (d : Direction) (x : String),
      Line.conn d "i1" x ∉
        autoinstLines (autoinstConnections barDecl "bar" [⟨"i1", "io"⟩] [])) ∧
    instPreConns (expandBuffer projIndex testBuffer) =
      instPreConns testBuffer) :=
  ⟨List.mem_singleton.mpr rfl,
   preconnected_ports_skipped projIndex testBuffer barDecl "bar"
     [⟨"i1", "io"⟩] [] ⟨"i1", "io"⟩ (List.mem_singleton.mpr rfl)⟩

/-- C3: when several template records in the same enclosing module match an
instantiation's module name, the lexically latest one supplies all connection
overrides for that AUTOINST — earlier matching records contribute nothing. -/
theorem latest_template_overrides (ts : List TemplateRecord)
    (t : TemplateRecord) (moduleName : String)
    (h : templateMatches t moduleName = true) :
    effectiveTemplate (ts ++ [t]) moduleName = t.connection_overrides ∧
    ∀ (m : ModuleDecl) (pre : List Connection),
      autoinstConnections m moduleName pre (ts ++ [t]) =
        autoinstConnections m moduleName pre [t] := by
  have hone : (List.filter (fun t' => templateMatches t' moduleName) [t]) =
      [t] := by
    simp [List.filter, h]
  have heff : effectiveTemplate (ts ++ [t]) moduleName =
      t.connection_overrides := by
    unfold effectiveTemplate
    rw [List.filter_append, hone, List.getLast?_concat]
  have heff1 : effectiveTemplate [t] moduleName = t.connection_overrides := by
    unfold effectiveTemplate
    rw [hone]
    rfl
  refine ⟨heff, ?_⟩
  intro m pre
  unfold autoinstConnections
  rw [heff, heff1]

theorem latest_template_overrides_witness :
    templateMatches ⟨"bar", some ".*", [⟨"i1", "input_1"⟩]⟩ "bar" = true ∧
    (effectiveTemplate
        ([⟨"bar", none, [⟨"i1", "in_a"⟩, ⟨"o2", "out_b"⟩]⟩] ++
          [⟨"bar", some ".*", [⟨"i1", "input_1"⟩]⟩]) "bar" =
      [⟨"i1", "input_1"⟩] ∧
    ∀ (m : ModuleDecl) (pre : List Connection),
      autoinstConnections m "bar" pre
          ([⟨"bar", none, [⟨"i1", "in_a"⟩, ⟨"o2", "out_b"⟩]⟩] ++
            [⟨"bar", some ".*", [⟨"i1", "input_1"⟩]⟩]) =
        autoinstConnections m "bar" pre
          [⟨"bar", some ".*", [⟨"i1", "input_1"⟩]⟩]) :=
  ⟨by decide,
   latest_template_overrides
     [⟨"bar", none, [⟨"i1", "in_a"⟩, ⟨"o2", "out_b"⟩]⟩]
     ⟨"bar", some ".*", [⟨"i1", "input_1"⟩]⟩ "bar" (by decide)⟩

/-- C5: when the symbol index contains several module declarations sharing
the instantiated name, resolution returns the first declaration and the
AUTOINST still renders a fill-in from that declaration's port list. -/
theorem ambiguous_module_first_wins (m : ModuleDecl) (rest : SymbolIndex)
    (name : String) (h : m.name = name) :
    lookup_module (m :: rest) name = some m ∧
    ∀ (ts : List TemplateRecord) (i : Instantiation),
      i.moduleName = name →
      expandInstConns (m :: rest) ts i =
        some (autoinstConnections m name i.preConnections ts) ∧
      (instFragment (m :: rest) ts i).isSome = true := by
  have hl : lookup_module (m :: rest) name = some m := by
    unfold lookup_module
    rw [List.find?_cons_of_pos]
    rw [h]
    exact beq_self_eq_true name
  refine ⟨hl, ?_⟩
  intro ts i hi
  have hconns : expandInstConns (m :: rest) ts i =
      some (autoinstConnections m name i.preConnections ts) := by
    unfold expandInstConns
    rw [hi, hl]
  exact ⟨hconns, by simp [instFragment, hconns]⟩

theorem ambiguous_module_first_wins_witness :
    (⟨"bar", [⟨"i1", Direction.input⟩, ⟨"o1", Direction.output⟩], []⟩ :
        ModuleDecl).name = "bar" ∧
    (lookup_module
        [⟨"bar", [⟨"i1", Direction.input⟩, ⟨"o1", Direction.output⟩], []⟩,
         ⟨"bar", [⟨"i2", Direction.input⟩, ⟨"o2", Direction.output⟩], []⟩]
        "bar" =
      some ⟨"bar", [⟨"i1", Direction.input⟩, ⟨"o1", Direction.output⟩], []⟩ ∧
    ∀ (ts : List TemplateRecord) (i : Instantiation),
      i.moduleName = "bar" →
      expandInstConns
          [⟨"bar", [⟨"i1", Direction.input⟩, ⟨"o1", Direction.output⟩], []⟩,
           ⟨"bar", [⟨"i2", Direction.input⟩, ⟨"o2", Direction.output⟩], []⟩]
          ts i =
        some (autoinstConnections
          ⟨"bar", [⟨"i1", Direction.input⟩, ⟨"o1", Direction.output⟩], []⟩
          "bar" i.preConnections ts) ∧
      (instFragment
        [⟨"bar", [⟨"i1", Direction.input⟩, ⟨"o1", Direction.output⟩], []⟩,
         ⟨"bar", [⟨"i2", Direction.input⟩, ⟨"o2", Direction.output⟩], []⟩]
        ts i).isSome = true) :=
  ⟨rfl,
   ambiguous_module_first_wins
     ⟨"bar", [⟨"i1", Direction.input⟩, ⟨"o1", Direction.output⟩], []⟩
     [⟨"bar", [⟨"i2", Direction.input⟩, ⟨"o2", Direction.output⟩], []⟩]
     "bar" rfl⟩

theorem sorted_three_buckets {L0 L1 L2 : List Line}
    (h0 : ∀ l ∈ L0, lineRank l = 0) (h1 : ∀ l ∈ L1, lineRank l = 1)
    (h2 : ∀ l ∈ L2, lineRank l = 2) :
    ((L0 ++ L1 ++ L2).map lineRank).Sorted (fun a b => a ≤ b) := by
  show ((L0 ++ L1 ++ L2).map lineRank).Pairwise _
  rw [List.pairwise_map, List.pairwise_append]
  refine ⟨?_, pairwise_rank_of_const L2 2 h2, ?_⟩
  · rw [List.pairwise_append]
    refine ⟨pairwise_rank_of_const L0 0 h0,
            pairwise_rank_of_const L1 1 h1, ?_⟩
    intro a ha b hb
    rw [h0 a ha, h1 b hb]
    omega
  · intro a ha b hb
    rcases List.mem_append.mp ha with h | h
    · rw [h0 a h, h2 b hb]; omega
    · rw [h1 a h, h2 b hb]; omega

/-- C6: in every emitted AUTOARG or AUTOINST fragment, input lines precede
inout lines precede output lines, each non-empty direction bucket is
introduced by its header comment, and an empty bucket emits no header
comment at all. -/
theorem bucket_order_invariant (conns : List (Port × String))
    (ports : List Port) :
    (∀ d : Direction, Line.header d ∈ autoinstLines conns ↔
        ∃ pe ∈ conns, pe.1.dir = d) ∧
    ((autoinstLines conns).map lineRank).Sorted (fun a b => a ≤ b) ∧
    (∀ d : Direction, Line.header d ∈ autoargLines ports ↔
        ∃ p ∈ ports, p.dir = d) ∧
    ((autoargLines ports).map lineRank).Sorted (fun a b => a ≤ b) := by
  refine ⟨?_, ?_, ?_, ?_⟩
  · intro d
    constructor
    · intro h
      unfold autoinstLines at h
      rcases List.mem_append.mp h with h1 | h1
      · rcases List.mem_append.mp h1 with h2 | h2
        · obtain ⟨hd, pe, hpe, hdir⟩ := header_mem_instBucket h2
          exact ⟨pe, hpe, by rw [hd]; exact hdir⟩
        · obtain ⟨hd, pe, hpe, hdir⟩ := header_mem_instBucket h2
          exact ⟨pe, hpe, by rw [hd]; exact hdir⟩
      · obtain ⟨hd, pe, hpe, hdir⟩ := header_mem_instBucket h1
        exact ⟨pe, hpe, by rw [hd]; exact hdir⟩
    · rintro ⟨pe, hpe, hdir⟩
      have hself := header_mem_instBucket_self hpe hdir
      unfold autoinstLines
      cases d with
      | input =>
        exact List.mem_append_left _ (List.mem_append_left _ hself)
      | inout =>
        exact List.mem_append_left _ (List.mem_append_right _ hself)
      | output => exact List.mem_append_right _ hself
  · exact sorted_three_buckets
      (fun l hl => rank_instBucket l hl)
      (fun l hl => rank_instBucket l hl)
      (fun l hl => rank_instBucket l hl)
  · intro d
    constructor
    · intro h
      unfold autoargLines at h
      rcases List.mem_append.mp h with h1 | h1
      · rcases List.mem_append.mp h1 with h2 | h2
        · obtain ⟨hd, p, hp, hdir⟩ := header_mem_argBucket h2
          exact ⟨p, hp, by rw [hd]; exact hdir⟩
        · obtain ⟨hd, p, hp, hdir⟩ := header_mem_argBucket h2
          exact ⟨p, hp, by rw [hd]; exact hdir⟩
      · obtain ⟨hd, p, hp, hdir⟩ := header_mem_argBucket h1
        exact ⟨p, hp, by rw [hd]; exact hdir⟩
    · rintro ⟨p, hp, hdir⟩
      have hself := header_mem_argBucket_self hp hdir
      unfold autoargLines
      cases d with
      | input =>
        exact List.mem_append_left _ (List.mem_append_left _ hself)
      | inout =>
        exact List.mem_append_left _ (List.mem_append_right _ hself)
      | output => exact List.mem_append_right _ hself
  · exact sorted_three_buckets
      (fun l hl => rank_argBucket l hl)
      (fun l hl => rank_argBucket l hl)
      (fun l hl => rank_argBucket l hl)

/-- C7: a template record applies to an AUTOINST exactly when the leading
identifier of its module-name pattern equals the instantiation's module name;
the quoted regex is retained in the record but has no effect on matching or
on the computed connections. -/
theorem template_match_exact_ident (t : TemplateRecord)
    (moduleName : String) :
    (templateMatches t moduleName = true ↔
      leadingIdent t.module_name_pattern = moduleName) ∧
    (∀ r : Option String,
      templateMatches { t with regex := r } moduleName =
        templateMatches t moduleName) ∧
    (∀ (f : TemplateRecord → Option String) (ts : List TemplateRecord)
        (m : ModuleDecl) (pre : List Connection),
      autoinstConnections m moduleName pre
          (ts.map (fun t' => { t' with regex := f t' })) =
        autoinstConnections m moduleName pre ts) := by
  refine ⟨?_, fun r => rfl, ?_⟩
  · unfold templateMatches
    exact beq_iff_eq
  · intro f ts m pre
    have heff : effectiveTemplate
        (ts.map (fun t' => { t' with regex := f t' })) moduleName =
        effectiveTemplate ts moduleName := by
      unfold effectiveTemplate
      rw [List.filter_map]
      have hfe : ((fun t' => templateMatches t' moduleName) ∘
          (fun t' => ({ t' with regex := f t' } : TemplateRecord))) =
          fun t' => templateMatches t' moduleName := rfl
      rw [hfe, List.getLast?_map]
      cases (ts.filter (fun t' => templateMatches t' moduleName)).getLast? with
      | none => rfl
      | some t' => rfl
    unfold autoinstConnections
    rw [heff]

/-- C8: the edit list returned to the host is sorted by descending end
position, line first then column, and is a permutation of the per-directive
edits, so applying it in list order keeps the later entries' spans valid. -/
theorem edits_sorted_descending (s : SymbolIndex) (B : Buffer) :
    (generate_expand_edits s B).Pairwise
      (fun a b => posLe b.span.endPos a.span.endPos) ∧
    (generate_expand_edits s B).Perm (collectEdits s B) :=
  ⟨List.sorted_insertionSort editBefore (collectEdits s B),
   List.perm_insertionSort editBefore (collectEdits s B)⟩

/-- C9: the code actions contain an action with the exact title "Expand all
AUTOs in selected range" whose edits are exactly the edits of the directives
whose span start line lies within the requested range; a directive starting
outside the range receives no edit in that action. -/
theorem range_action_scoped (s : SymbolIndex) (B : Buffer) (r : Span)
    (hwf : WellFormed B) :
    ∃ a ∈ generate_code_actions s B r,
      a.title = "Expand all AUTOs in selected range" ∧
      (∀ e : Edit, e ∈ a.edits ↔
        ∃ d ∈ bufferDirs B, spanInRange r (dirSpan d) = true ∧
          dirEdit s d = some e) ∧
      (∀ d ∈ bufferDirs B, spanInRange r (dirSpan d) = false →
        ∀ e ∈ a.edits, e.span ≠ dirSpan d) := by
  refine ⟨⟨"Expand all AUTOs in selected range",
    (((bufferDirs B).filter (fun d => spanInRange r (dirSpan d))).filterMap
        (dirEdit s)).insertionSort editBefore⟩, ?_, rfl, ?_, ?_⟩
  · unfold generate_code_actions
    exact List.mem_cons_of_mem _ (List.mem_singleton.mpr rfl)
  · intro e
    show e ∈ List.insertionSort editBefore _ ↔ _
    rw [(List.perm_insertionSort editBefore _).mem_iff, List.mem_filterMap]
    constructor
    · rintro ⟨d, hd, hde⟩
      have hd' := List.mem_filter.mp hd
      exact ⟨d, hd'.1, hd'.2, hde⟩
    · rintro ⟨d, hd, hin, hde⟩
      exact ⟨d, List.mem_filter.mpr ⟨hd, hin⟩, hde⟩
  · intro d hd hout e he hsp
    rw [show (⟨"Expand all AUTOs in selected range",
      (((bufferDirs B).filter (fun d => spanInRange r (dirSpan d))).filterMap
          (dirEdit s)).insertionSort editBefore⟩ : CodeAction).edits =
      (((bufferDirs B).filter (fun d => spanInRange r (dirSpan d))).filterMap
          (dirEdit s)).insertionSort editBefore from rfl] at he
    rw [(List.perm_insertionSort editBefore _).mem_iff,
      List.mem_filterMap] at he
    obtain ⟨d', hd', hde⟩ := he
    have hd'm := (List.mem_filter.mp hd').1
    have hin' := (List.mem_filter.mp hd').2
    have hspan : dirSpan d' = dirSpan d := by
      rw [← dirEdit_span s hde, hsp]
    rw [dir_inj hwf hd'm hd hspan] at hin'
    rw [hout] at hin'
    cases hin'

theorem range_action_scoped_witness :
    WellFormed testBuffer ∧
    ∃ a ∈ generate_code_actions projIndex testBuffer ⟨⟨0, 0⟩, ⟨12, 0⟩⟩,
      a.title = "Expand all AUTOs in selected range" ∧
      (∀ e : Edit, e ∈ a.edits ↔
        ∃ d ∈ bufferDirs testBuffer,
          spanInRange ⟨⟨0, 0⟩, ⟨12, 0⟩⟩ (dirSpan d) = true ∧
          dirEdit projIndex d = some e) ∧
      (∀ d ∈ bufferDirs testBuffer,
        spanInRange ⟨⟨0, 0⟩, ⟨12, 0⟩⟩ (dirSpan d) = false →
        ∀ e ∈ a.edits, e.span ≠ dirSpan d) :=
  ⟨by decide,
   range_action_scoped projIndex testBuffer ⟨⟨0, 0⟩, ⟨12, 0⟩⟩ (by decide)⟩

/-- C10: explicit connections lexically after the AUTOINST directive sit in
the directive's span and are replaced wholesale — the emitted fragment does
not depend on the span's previous text — while every module port not
pre-connected before the directive appears, regenerated, in the new
fill-in. -/
theorem post_directive_connections_regenerated (s : SymbolIndex)
    (ts : List TemplateRecord) (i : Instantiation)
    (m : ModuleDecl) (hm : lookup_module s i.moduleName = some m) :
    (∀ f : String, instFragment s ts { i with fillIn := f } =
      some (autoinstFill i.indent
        (autoinstConnections m i.moduleName i.preConnections ts))) ∧
    ∀ p ∈ modulePorts m,
      i.preConnections.any (fun c => c.portName == p.name) = false →
      ∃ x, Line.conn p.dir p.name x ∈
        autoinstLines (autoinstConnections m i.moduleName i.preConnections
          ts) := by
  refine ⟨?_, ?_⟩
  · intro f
    simp [instFragment, expandInstConns, hm]
  intro p hp hpre
  have hfil : p ∈ (modulePorts m).filter
      (fun p' => !(i.preConnections.any (fun c => c.portName == p'.name))) :=
    List.mem_filter.mpr ⟨hp, by rw [hpre]; rfl⟩
  have hmem : (p, match (effectiveTemplate ts i.moduleName).find?
        (fun c => c.portName == p.name) with
      | some c => c.expr
      | none => p.name) ∈
      autoinstConnections m i.moduleName i.preConnections ts := by
    unfold autoinstConnections
    exact List.mem_map.mpr ⟨p, hfil, rfl⟩
  exact ⟨_, conn_mem_autoinstLines hmem⟩

theorem post_directive_connections_regenerated_witness :
    lookup_module projIndex barInst.moduleName = some barDecl ∧
    ((∀ f : String, instFragment projIndex [] { barInst with fillIn := f } =
      some (autoinstFill barInst.indent
        (autoinstConnections barDecl barInst.moduleName
          barInst.preConnections []))) ∧
    ∀ p ∈ modulePorts barDecl,
      barInst.preConnections.any (fun c => c.portName == p.name) = false →
      ∃ x, Line.conn p.dir p.name x ∈
        autoinstLines (autoinstConnections barDecl barInst.moduleName
          barInst.preConnections [])) :=
  ⟨by decide,
   post_directive_connections_regenerated projIndex [] barInst barDecl
     (by decide)⟩

end Autoexpand
